import Mathlib

/-!
Verification of the secure-shell-server policy engine: a shallow embedding of
the command validator, the meta-command parsers for xargs and find, the path
checker, the output limiter and the runner entry point, together with proofs
of the behavioural claims about them.

Strings are modelled as Lean `String`s; Go byte strings are ASCII throughout
the code under study, so `String.data` (a list of characters) is a faithful
byte-level view.  Go `int` values are modelled as `Int`.
-/

namespace SecureShell

/-! ### Go string primitives -/

/-- Model of Go `strings.HasPrefix` (byte-wise prefix test). -/
def hasPre (s pre : String) : Bool := pre.data.isPrefixOf s.data

/-- Model of Go `strings.Contains(s, c)` for a one-character needle. -/
def containsChar (s : String) (c : Char) : Bool := s.data.contains c

/-- Model of Go `fmt.Sprintf("%q", s)` on strings without escape-worthy
characters: wrap in double quotes. -/
def quoteStr (s : String) : String := "\"" ++ s ++ "\""

/-! ### Go `path/filepath` (Unix rules)

`filepath.Clean` is lexical: split on the separator, drop empty and `.`
components, let `..` pop a previous component (elided entirely at the root of
a rooted path, kept at the front of a relative one). -/

/-- Split a character list on the path separator. -/
def splitOnSlash : List Char → List (List Char)
  | [] => [[]]
  | c :: rest =>
    let r := splitOnSlash rest
    if c = '/' then [] :: r
    else
      match r with
      | h :: t => (c :: h) :: t
      | [] => [[c]]

/-- One step of `filepath.Clean`'s element processing.  `acc` holds the output
components in reverse order. -/
def cleanStep (rooted : Bool) (acc : List String) (comp : String) : List String :=
  if comp = "" ∨ comp = "." then acc
  else if comp = ".." then
    match acc with
    | [] => if rooted then [] else [".."]
    | a :: rest => if a = ".." then ".." :: a :: rest else rest
  else comp :: acc

/-- Model of Go `filepath.Clean` on Unix. -/
def filepathClean (path : String) : String :=
  if path = "" then "."
  else
    let rooted := hasPre path "/"
    let comps := (splitOnSlash path.data).map (fun l => String.mk l)
    let out := (comps.foldl (cleanStep rooted) []).reverse
    let body := String.intercalate "/" out
    if rooted then (if body = "" then "/" else "/" ++ body)
    else (if body = "" then "." else body)

/-- Model of Go `filepath.IsAbs` on Unix. -/
def filepathIsAbs (path : String) : Bool := hasPre path "/"

/-- Model of Go `filepath.Join` with two elements: join the non-empty elements
with the separator and clean the result. -/
def filepathJoin (a b : String) : String :=
  if a ≠ "" then filepathClean (a ++ "/" ++ b)
  else if b ≠ "" then filepathClean b
  else ""

/-- Model of Go `filepath.Abs`.  The process working directory, which Go reads
with `os.Getwd`, is passed explicitly as `procCwd`; it only matters for
relative inputs. -/
def filepathAbs (procCwd path : String) : String :=
  if filepathIsAbs path then filepathClean path else filepathJoin procCwd path

example : filepathClean "/tmp/../etc/x" = "/etc/x" := by decide
example : filepathClean "a/.." = "." := by decide
example : filepathClean "/.." = "/" := by decide
example : filepathClean "../a" = "../a" := by decide
example : filepathClean "/tmp//x/./y/" = "/tmp/x/y" := by decide
example : hasPre "/tmpevil" "/tmp" = true := by decide
example : filepathJoin "/tmp" "a.txt" = "/tmp/a.txt" := by decide
example : toString (30 : Int) = "30" := by decide

/-! ### Configuration (package `config`)

The struct layout follows the `config` package source (its file is packed
into `src/main.go`; exercised by `config_test.go`): `ShellCommandConfig` with
`AllowedDirectories`, `AllowCommands`, `DenyCommands`, `DefaultErrorMessage`,
`BlockLogPath`, `MaxExecutionTime`, `MaxOutputSize`; an `AllowCommand` has
`Command`, `SubCommands`, `DenySubCommands`; a `DenyCommand` has `Command` and
`Message`. -/

/-- An allow-list entry: a command name with optional sub-command lists. -/
structure AllowCommand where
  command : String
  subCommands : List String := []
  denySubCommands : List String := []
deriving DecidableEq, Repr

/-- A deny-list entry: a command name with an optional custom message. -/
structure DenyCommand where
  command : String
  message : String := ""
deriving DecidableEq, Repr

/-- The loaded policy. -/
structure ShellCommandConfig where
  allowedDirectories : List String := []
  allowCommands : List AllowCommand := []
  denyCommands : List DenyCommand := []
  defaultErrorMessage : String := ""
  blockLogPath : String := ""
  maxExecutionTime : Int := 0
  maxOutputSize : Int := 0
deriving DecidableEq, Repr

/-- `IsCommandAllowed` (package `config`, at `src/main.go:378`): scan the
allow list for an entry whose command name matches, returning whether one
exists. -/
def ShellCommandConfig.IsCommandAllowed (cfg : ShellCommandConfig) (cmd : String) : Bool :=
  cfg.allowCommands.any (fun a => a.command = cmd)

/-! ### Command validator (package `validator`, `validator.go` of the
`ValidateCommand` surface)

The validator's only state is the policy (the logger and the block journal are
write-only side channels with no influence on decisions and are not modelled).
Every function additionally receives `procCwd`, the process working directory
used by Go's `filepath.Abs` for relative inputs. -/

/-- `IsDirectoryAllowed`: a directory is allowed when some entry of
`allowedDirectories` is a string prefix of it. -/
def IsDirectoryAllowed (cfg : ShellCommandConfig) (dir : String) : Bool × String :=
  if dir = "" then (false, "empty directory path is not allowed")
  else if cfg.allowedDirectories.any (fun d => hasPre dir d) then (true, "")
  else (false, "directory " ++ quoteStr dir ++ " is not allowed: " ++ cfg.defaultErrorMessage)

/-- `IsPathInAllowedDirectory`: resolve the candidate against the base
directory, clean it, make it absolute, and test whether some allowed directory
(itself made absolute) is a string prefix of the result. -/
def IsPathInAllowedDirectory (cfg : ShellCommandConfig) (procCwd path baseDir : String) :
    Bool × String :=
  if path = "" then (false, "empty path is not allowed")
  else
    let absPath0 := if filepathIsAbs path then path else filepathJoin baseDir path
    let absPath1 := filepathClean absPath0
    let absPath := filepathAbs procCwd absPath1
    if cfg.allowedDirectories.any (fun d => hasPre absPath (filepathAbs procCwd d)) then
      (true, "")
    else
      (false, "path " ++ quoteStr path ++ " is outside of allowed directories: " ++
        cfg.defaultErrorMessage)

/-- `isPathLike`: the string heuristic for treating an argument as a path.
On Unix `os.PathSeparator` is `'/'`, so the separate separator check in the
source coincides with the explicit `"/"` check. -/
def isPathLike (arg : String) : Bool :=
  containsChar arg '/' ||
  containsChar arg '\\' ||
  hasPre arg "./" ||
  hasPre arg "../" ||
  hasPre arg "~" ||
  hasPre arg "."

/-- `isCommandExplicitlyDenied`: first matching deny entry wins; its custom
message is used when non-empty, the default message otherwise. -/
def isCommandExplicitlyDenied (cfg : ShellCommandConfig) (cmd : String) : Bool × String :=
  match cfg.denyCommands.find? (fun d => d.command = cmd) with
  | some d =>
      (true, "command " ++ quoteStr cmd ++ " is denied: " ++
        (if d.message = "" then cfg.defaultErrorMessage else d.message))
  | none => (false, "")

/-- `checkSubCommandPermissions`: gate the first argument against the allow
entry's sub-command lists. -/
def checkSubCommandPermissions (cmd : String) (args : List String) (a : AllowCommand) :
    Bool × String :=
  match args with
  | [] => (true, "")
  | arg0 :: _ =>
    if a.subCommands ≠ [] ∧ ¬ a.subCommands.contains arg0 then
      (false, "subcommand " ++ quoteStr arg0 ++ " is not allowed for command " ++ quoteStr cmd)
    else if a.denySubCommands ≠ [] ∧ a.denySubCommands.contains arg0 then
      (false, "subcommand " ++ quoteStr arg0 ++ " is denied for command " ++ quoteStr cmd)
    else (true, "")

/-- `validatePathArguments`: every argument that looks like a path and is not a
flag must pass the path checker; the first failure decides. -/
def validatePathArguments (cfg : ShellCommandConfig) (procCwd : String) (args : List String)
    (workDir : String) : Bool × String :=
  match args with
  | [] => (true, "")
  | arg :: rest =>
    if hasPre arg "-" || !isPathLike arg then
      validatePathArguments cfg procCwd rest workDir
    else
      let pr := IsPathInAllowedDirectory cfg procCwd arg workDir
      if ¬ pr.1 then (false, pr.2)
      else validatePathArguments cfg procCwd rest workDir

/-! ### Xargs parser (`xargs.go`) -/

/-- The xargs flags that consume a following value token. -/
def flagsWithArgs : List String :=
  ["-a", "--arg-file",
   "-E", "--eof",
   "--max-args", "-n",
   "--max-chars", "-s",
   "--max-lines", "-L",
   "--max-procs", "-P"]

/-- `isFlagWithArg`: whether a flag takes a separate value token.  The source's
inline-value branch for `-I...`/`-i...` returns `false`, as does the fall
through, and is kept for fidelity. -/
def isFlagWithArg (flag : String) : Bool :=
  if flagsWithArgs.contains flag then true
  else if flag = "-i" ∨ flag = "-I" then true
  else if (hasPre flag "-i" ∨ hasPre flag "-I") ∧ flag.length > 2 then false
  else false

/-- `findExecCommand`: the token after the first `-exec`/`--exec` that is not
in the last position is the nested command; the rest are its arguments. -/
def findExecCommand : List String → Option (String × List String)
  | a :: b :: rest =>
    if a = "-exec" ∨ a = "--exec" then some (b, rest)
    else findExecCommand (b :: rest)
  | _ => none

/-- `findCommandAfterFlags`: skip flags (and the value token of each
value-taking flag); the first non-flag token is the command. -/
def findCommandAfterFlags : List String → Option (String × List String)
  | [] => none
  | a :: rest =>
    if ¬ hasPre a "-" then some (a, rest)
    else if isFlagWithArg a then
      match rest with
      | [] => none
      | _ :: rest2 => findCommandAfterFlags rest2
    else findCommandAfterFlags rest

/-- `ParseXargsCommand`: extract the nested command and arguments from an
xargs argument list. -/
def ParseXargsCommand (args : List String) : String × List String × Bool × String :=
  if args = [] then ("", [], false, "no arguments provided to xargs")
  else
    match findExecCommand args with
    | some (c, as) => (c, as, true, "")
    | none =>
      match findCommandAfterFlags args with
      | some (c, as) => (c, as, true, "")
      | none => ("", [], false, "unable to determine command to be executed by xargs")

theorem findExecCommand_length {args : List String} {c : String} {as : List String}
    (h : findExecCommand args = some (c, as)) : as.length < args.length := by
  induction args with
  | nil => simp [findExecCommand] at h
  | cons a rest ih =>
    match rest, h with
    | [], h => simp [findExecCommand] at h
    | b :: rest2, h =>
      rw [findExecCommand] at h
      by_cases hab : a = "-exec" ∨ a = "--exec"
      · rw [if_pos hab] at h
        cases h
        simp
        omega
      · rw [if_neg hab] at h
        have := ih h
        simpa using Nat.lt_succ_of_lt this

theorem findCommandAfterFlags_length_aux (n : Nat) :
    ∀ (args : List String), args.length ≤ n → ∀ {c : String} {as : List String},
      findCommandAfterFlags args = some (c, as) → as.length < args.length := by
  induction n with
  | zero =>
    intro args hlen c as h
    match args with
    | [] => simp [findCommandAfterFlags] at h
    | a :: rest => simp at hlen
  | succ n ih =>
    intro args hlen c as h
    match args with
    | [] => simp [findCommandAfterFlags] at h
    | a :: rest =>
      rw [findCommandAfterFlags.eq_def] at h
      split at h
      · exact absurd h (by simp)
      · rename_i rest' head rest2 heq
        rw [heq] at hlen ⊢
        clear heq
        split at h
        · cases h
          simp
        · split at h
          · split at h
            · exact absurd h (by simp)
            · rename_i head2 rest3
              have hlen2 : rest3.length ≤ n := by simp at hlen; omega
              have := ih rest3 hlen2 h
              simp
              omega
          · have hlen1 : rest2.length ≤ n := by simp at hlen; omega
            have := ih rest2 hlen1 h
            simpa using Nat.lt_succ_of_lt this

theorem findCommandAfterFlags_length {args : List String} {c : String} {as : List String}
    (h : findCommandAfterFlags args = some (c, as)) : as.length < args.length :=
  findCommandAfterFlags_length_aux args.length args le_rfl h

theorem ParseXargsCommand_length {args : List String} {c : String} {as : List String}
    {r : String} (h : ParseXargsCommand args = (c, as, true, r)) :
    as.length < args.length := by
  rw [ParseXargsCommand] at h
  by_cases hnil : args = []
  · rw [if_pos hnil] at h
    simp at h
  · rw [if_neg hnil] at h
    cases hE : findExecCommand args with
    | some p =>
      obtain ⟨c0, as0⟩ := p
      rw [hE] at h
      cases h
      exact findExecCommand_length hE
    | none =>
      rw [hE] at h
      cases hF : findCommandAfterFlags args with
      | some p =>
        obtain ⟨c0, as0⟩ := p
        rw [hF] at h
        cases h
        exact findCommandAfterFlags_length hF
      | none =>
        rw [hF] at h
        simp at h

/-! ### `ValidateCommand` (`validator.go` of the `ValidateCommand` surface)

The Go function recurses through `validateXargsCommand` into the command that
xargs would execute; the nested argument list produced by the xargs parser is
a strict sub-list of the input, which bounds the recursion.  To keep the
definition kernel-computable the recursion is paid for with an explicit fuel
counter that the wrapper `ValidateCommand` seeds with more fuel than the
recursion can consume; `ValidateCommand_xargs_eq` and
`ValidateCommand_not_xargs` recover the Go function's defining equations. -/

/-- Fueled worker for `ValidateCommand`, with `validateXargsCommand` inlined
as the `cmd = "xargs"` branch.  Go's two-value returns
(`denied, message := …`) are bound with `let` and read through `.1`/`.2`.
The fuel strictly exceeds `args.length` at every call, so the `0` case is
unreachable. -/
def ValidateCommandF (fuel : Nat) (cfg : ShellCommandConfig) (procCwd : String) (cmd : String)
    (args : List String) (workDir : String) : Bool × String :=
  if cmd = "xargs" then
    -- validateXargsCommand: first check whether xargs itself is denied
    let d := isCommandExplicitlyDenied cfg "xargs"
    if d.1 then (false, d.2)
    else if ¬ cfg.IsCommandAllowed "xargs" then
      (false, "command " ++ quoteStr "xargs" ++ " is not permitted: " ++
        cfg.defaultErrorMessage)
    else
      -- q = (xargsCmd, xargsArgs, valid, errMsg)
      let q := ParseXargsCommand args
      if q.2.2.1 then
        match fuel with
        | 0 => (false, "")
        | fuel' + 1 =>
          let nested := ValidateCommandF fuel' cfg procCwd q.1 q.2.1 workDir
          if ¬ nested.1 then
            (false, "xargs would execute disallowed command: " ++ nested.2)
          else (true, "")
      else (false, q.2.2.2)
  else
    let d := isCommandExplicitlyDenied cfg cmd
    if d.1 then (false, d.2)
    else
      match cfg.allowCommands.find? (fun a => a.command = cmd) with
      | some allowed =>
        if allowed.subCommands = [] ∧ allowed.denySubCommands = [] then
          validatePathArguments cfg procCwd args workDir
        else
          let s := checkSubCommandPermissions cmd args allowed
          if ¬ s.1 then (false, s.2)
          else validatePathArguments cfg procCwd args workDir
      | none =>
        (false, "command " ++ quoteStr cmd ++ " is not permitted: " ++
          cfg.defaultErrorMessage)

/-- `ValidateCommand`: the validator's single decision function. -/
def ValidateCommand (cfg : ShellCommandConfig) (procCwd : String) (cmd : String)
    (args : List String) (workDir : String) : Bool × String :=
  ValidateCommandF (args.length + 1) cfg procCwd cmd args workDir

theorem ParseXargsCommand_length' (args : List String)
    (h : (ParseXargsCommand args).2.2.1 = true) :
    (ParseXargsCommand args).2.1.length < args.length := by
  rcases hp : ParseXargsCommand args with ⟨c, as, ok, r⟩
  rw [hp] at h
  simp at h
  subst h
  simpa using ParseXargsCommand_length hp

theorem ValidateCommandF_fuel_irrel :
    ∀ (fuel fuel' : Nat) (cfg : ShellCommandConfig) (procCwd cmd : String)
      (args : List String) (workDir : String),
      args.length < fuel → args.length < fuel' →
      ValidateCommandF fuel cfg procCwd cmd args workDir =
        ValidateCommandF fuel' cfg procCwd cmd args workDir := by
  intro fuel
  induction fuel with
  | zero => intro fuel' cfg p cmd args wd h; omega
  | succ n ih =>
    intro fuel' cfg p cmd args wd h h'
    match fuel' with
    | 0 => omega
    | m + 1 =>
      rw [ValidateCommandF, ValidateCommandF]
      by_cases hx : cmd = "xargs"
      · rw [if_pos hx, if_pos hx]
        by_cases hd : (isCommandExplicitlyDenied cfg "xargs").1
        · simp only [hd, if_true]
        · simp only [hd, if_false, Bool.false_eq_true]
          by_cases ha : (¬ cfg.IsCommandAllowed "xargs" = true)
          · simp only [if_pos ha]
          · simp only [if_neg ha]
            by_cases hq : (ParseXargsCommand args).2.2.1 = true
            · simp only [hq, if_true]
              have hlen := ParseXargsCommand_length' args hq
              rw [ih m cfg p (ParseXargsCommand args).1 (ParseXargsCommand args).2.1 wd
                (by omega) (by omega)]
            · simp only [hq, if_false, Bool.false_eq_true]
      · rw [if_neg hx, if_neg hx]

/-- `validateXargsCommand`, as its own function mirroring the source: check
xargs itself, parse, then validate the nested command. -/
def validateXargsCommand (cfg : ShellCommandConfig) (procCwd : String) (args : List String)
    (workDir : String) : Bool × String :=
  let d := isCommandExplicitlyDenied cfg "xargs"
  if d.1 then (false, d.2)
  else if ¬ cfg.IsCommandAllowed "xargs" then
    (false, "command " ++ quoteStr "xargs" ++ " is not permitted: " ++
      cfg.defaultErrorMessage)
  else
    let q := ParseXargsCommand args
    if q.2.2.1 then
      let nested := ValidateCommand cfg procCwd q.1 q.2.1 workDir
      if ¬ nested.1 then
        (false, "xargs would execute disallowed command: " ++ nested.2)
      else (true, "")
    else (false, q.2.2.2)

theorem ValidateCommand_xargs_eq (cfg : ShellCommandConfig) (procCwd : String)
    (args : List String) (workDir : String) :
    ValidateCommand cfg procCwd "xargs" args workDir =
      validateXargsCommand cfg procCwd args workDir := by
  rw [ValidateCommand, ValidateCommandF, validateXargsCommand, if_pos rfl]
  by_cases hd : (isCommandExplicitlyDenied cfg "xargs").1
  · simp only [hd, if_true]
  · simp only [hd, if_false, Bool.false_eq_true]
    by_cases ha : (¬ cfg.IsCommandAllowed "xargs" = true)
    · simp only [if_pos ha]
    · simp only [if_neg ha]
      by_cases hq : (ParseXargsCommand args).2.2.1 = true
      · simp only [hq, if_true]
        have hlen := ParseXargsCommand_length' args hq
        rw [ValidateCommand,
          ValidateCommandF_fuel_irrel args.length ((ParseXargsCommand args).2.1.length + 1)
            cfg procCwd (ParseXargsCommand args).1 (ParseXargsCommand args).2.1 workDir
            (by omega) (by omega)]
      · simp only [hq, if_false, Bool.false_eq_true]

theorem ValidateCommand_not_xargs (cfg : ShellCommandConfig) (procCwd cmd : String)
    (args : List String) (workDir : String) (h : cmd ≠ "xargs") :
    ValidateCommand cfg procCwd cmd args workDir =
      (let d := isCommandExplicitlyDenied cfg cmd
       if d.1 then (false, d.2)
       else
         match cfg.allowCommands.find? (fun a => a.command = cmd) with
         | some allowed =>
           if allowed.subCommands = [] ∧ allowed.denySubCommands = [] then
             validatePathArguments cfg procCwd args workDir
           else
             let s := checkSubCommandPermissions cmd args allowed
             if ¬ s.1 then (false, s.2)
             else validatePathArguments cfg procCwd args workDir
         | none =>
           (false, "command " ++ quoteStr cmd ++ " is not permitted: " ++
             cfg.defaultErrorMessage)) := by
  rw [ValidateCommand, ValidateCommandF, if_neg h]

example :
    ValidateCommand
      { allowedDirectories := ["/tmp"],
        allowCommands := [{ command := "xargs" }, { command := "echo" }],
        denyCommands := [{ command := "rm", message := "Remove command is not allowed" }],
        defaultErrorMessage := "no" }
      "/" "xargs" ["rm"] "/tmp"
      = (false,
         "xargs would execute disallowed command: command \"rm\" is denied: Remove command is not allowed") := by
  decide

/-! ### Find parser (`find.go`) -/

/-- A terminator of a `-exec`/`-execdir` clause. -/
def isFindTerminator (a : String) : Bool := a = ";" ∨ a = "\\;" ∨ a = "+"

/-- Skip forward past the first clause terminator (Go's inner scan ends on the
terminator and the outer loop resumes after it; with no terminator the scan
consumes the rest of the list). -/
def dropThroughTerminator : List String → List String
  | [] => []
  | a :: rest => if isFindTerminator a then rest else dropThroughTerminator rest

theorem dropThroughTerminator_length_le (l : List String) :
    (dropThroughTerminator l).length ≤ l.length := by
  induction l with
  | nil => simp [dropThroughTerminator]
  | cons a rest ih =>
    rw [dropThroughTerminator]
    split
    · simp
    · simpa using Nat.le_succ_of_le ih

/-- Fueled worker for `extractExecCommands`; every step consumes at least one
token, so fuel equal to the list length is enough. -/
def extractExecCommandsF : Nat → List String → List String
  | 0, _ => []
  | _, [] => []
  | _, [_] => []
  | fuel + 1, a :: b :: rest =>
    if a = "-exec" ∨ a = "-execdir" then
      if isFindTerminator b then extractExecCommandsF fuel rest
      else
        (if ¬ hasPre b "\x7b" then [b] else []) ++
          extractExecCommandsF fuel (dropThroughTerminator rest)
    else extractExecCommandsF fuel (b :: rest)

/-- `extractExecCommands`: the token immediately after each `-exec`/`-execdir`
(unless it is a terminator or starts with a brace) is a command operand. -/
def extractExecCommands (args : List String) : List String :=
  extractExecCommandsF args.length args

/-- `ParseFindExecArgs`: the list of command operands of all `-exec`/`-execdir`
clauses, with a flag meaning "at least one was found".  (Go returns `nil` for
"none", modelled as the empty list.) -/
def ParseFindExecArgs (args : List String) : List String × Bool × String :=
  if args = [] then ([], false, "")
  else
    let commands := extractExecCommands args
    if commands = [] then ([], false, "")
    else (commands, true, "")

example : extractExecCommands ["-type", "f", "-exec", "rm", "-f", "\x7b\x7d", "\\;"]
    = ["rm"] := by decide
example : extractExecCommands
    ["-type", "f", "-exec", "echo", "\x7b\x7d", "\\;", "-exec", "sudo", "chmod", "777",
     "\x7b\x7d", "\\;"] = ["echo", "sudo"] := by decide
example : extractExecCommands ["-type", "f", "-exec"] = [] := by decide
example : extractExecCommands ["-name", "*.txt", "-exec", "echo", "\x7b\x7d", "+"]
    = ["echo"] := by decide

/-- Modelled from the spec: the validator's `find` dispatch is absent from the
source tree — only its tests (`find_test.go`) and the parser (`find.go`) are
present.  Spec §4.4 step 1: after steps 2–5 pass for `find` itself, run the
find parser and for each extracted nested command require
`validate(nested_cmd, [], cwd_abs).allowed`; deny on the first failure with
reason `"find command contains disallowed -exec: …"`.  This helper validates
the extracted commands in order. -/
def checkFindExecCommands (cfg : ShellCommandConfig) (procCwd workDir : String) :
    List String → Bool × String
  | [] => (true, "")
  | c :: rest =>
    let nested := ValidateCommand cfg procCwd c [] workDir
    if ¬ nested.1 then
      (false, "find command contains disallowed -exec: " ++ nested.2)
    else checkFindExecCommands cfg procCwd workDir rest

/-- Modelled from the spec: `ValidateCommand` extended with the `find`
dispatch of spec §4.4 step 1 (the branch is missing from the source tree;
only `find.go` and `find_test.go` witness it).  For `find`, the ordinary
checks (deny, allow, sub-commands, path arguments) run first; when they pass,
every command operand extracted from a `-exec`/`-execdir` clause must itself
validate (with empty arguments), and the first failure denies the whole
invocation with the prefixed reason. -/
def ValidateCommandWithFind (cfg : ShellCommandConfig) (procCwd cmd : String)
    (args : List String) (workDir : String) : Bool × String :=
  if cmd = "find" then
    let base := ValidateCommand cfg procCwd "find" args workDir
    if ¬ base.1 then base
    else
      let pf := ParseFindExecArgs args
      if pf.2.1 then checkFindExecCommands cfg procCwd workDir pf.1
      else (true, "")
  else ValidateCommand cfg procCwd cmd args workDir

/-! ### Output limiter (`limiter.go`)

The underlying `io.Writer` is modelled as the list of byte strings it has
received, in order, each tagged with which of the two `Writer.Write` call
sites in the source produced it (payload data or the truncation marker).  The
modelled sink accepts every byte and never fails, so `Write`'s error result is
always `none`. -/

/-- One write received by the underlying sink. -/
inductive Chunk where
  | payload (data : List Char)
  | marker (s : String)
deriving DecidableEq, Repr

/-- The limiter state plus the bytes its underlying sink has received. -/
structure OutputLimiter where
  maxBytes : Int
  bytesWritten : Int
  totalInputBytes : Int
  truncated : Bool
  sink : List Chunk
deriving DecidableEq, Repr

/-- `NewOutputLimiter` over a fresh sink. -/
def NewOutputLimiter (maxBytes : Int) : OutputLimiter :=
  { maxBytes := maxBytes, bytesWritten := 0, totalInputBytes := 0,
    truncated := false, sink := [] }

/-- `getTruncationMessage`. -/
def OutputLimiter.getTruncationMessage (ol : OutputLimiter) : String :=
  "\n\n[Output truncated, exceeded " ++ toString ol.maxBytes ++ " bytes limit. " ++
    toString (ol.totalInputBytes - ol.bytesWritten) ++ " bytes remaining]\n"

/-- `Write`: count all input; under the limit pass bytes through; at the
boundary write what fits and emit the marker once; afterwards swallow input
while still counting it.  Returns `(n, err)` and the new state. -/
def OutputLimiter.Write (ol : OutputLimiter) (p : List Char) :
    (Int × Option String) × OutputLimiter :=
  let ol := { ol with totalInputBytes := ol.totalInputBytes + p.length }
  if ol.truncated then (((p.length : Int), none), ol)
  else
    let remaining := ol.maxBytes - ol.bytesWritten
    if remaining ≤ 0 then
      let ol := { ol with sink := ol.sink ++ [Chunk.marker ol.getTruncationMessage],
                          truncated := true }
      (((p.length : Int), none), ol)
    else if (p.length : Int) > remaining then
      let writeLen := remaining
      let written := writeLen
      let ol := { ol with sink := ol.sink ++ [Chunk.payload (p.take writeLen.toNat)],
                          bytesWritten := ol.bytesWritten + written }
      let ol := { ol with sink := ol.sink ++ [Chunk.marker ol.getTruncationMessage],
                          truncated := true }
      (((p.length : Int), none), ol)
    else
      let ol := { ol with sink := ol.sink ++ [Chunk.payload p],
                          bytesWritten := ol.bytesWritten + (p.length : Int) }
      (((p.length : Int), none), ol)

/-- `WasTruncated`. -/
def OutputLimiter.WasTruncated (ol : OutputLimiter) : Bool := ol.truncated

/-- `GetRemainingBytes`. -/
def OutputLimiter.GetRemainingBytes (ol : OutputLimiter) : Int :=
  if ¬ ol.truncated then 0 else ol.totalInputBytes - ol.bytesWritten

/-- Fold a sequence of writes through the limiter. -/
def runWrites (ol : OutputLimiter) (ps : List (List Char)) : OutputLimiter :=
  ps.foldl (fun o p => (o.Write p).2) ol

/-- Payload bytes contributed by one sink chunk. -/
def chunkPayloadBytes : Chunk → Int
  | Chunk.payload d => (d.length : Int)
  | Chunk.marker _ => 0

/-- Total payload bytes the sink has received. -/
def payloadBytes (sink : List Chunk) : Int := (sink.map chunkPayloadBytes).sum

/-- The marker strings the sink has received, in order. -/
def markersOf (sink : List Chunk) : List String :=
  sink.filterMap (fun c => match c with | Chunk.marker s => some s | Chunk.payload _ => none)

/-- The truncation-marker text as a function of the limit and the discarded
byte count. -/
def truncMsg (maxBytes remaining : Int) : String :=
  "\n\n[Output truncated, exceeded " ++ toString maxBytes ++ " bytes limit. " ++
    toString remaining ++ " bytes remaining]\n"

theorem getTruncationMessage_eq (ol : OutputLimiter) :
    ol.getTruncationMessage = truncMsg ol.maxBytes (ol.totalInputBytes - ol.bytesWritten) := rfl

/-! ### Secure runner (`runner.go`, `RunCommand`)

Shell parsing and AST interpretation are external collaborators
(`mvdan.cc/sh`); they are abstracted as oracle functions over an arbitrary
AST type, which is exactly what lets us state that a rejected working
directory short-circuits before any parsing: the result is then independent
of both oracles. -/

/-- `RunCommand` up to the phases the source sequences: resolve the working
directory, check it, parse, then hand over to the interpreter (`runProg`,
covering context/timeout setup and `runner.Run`). -/
def RunCommand {α : Type} (cfg : ShellCommandConfig) (procCwd : String)
    (parse : String → Except String α) (runProg : α → Except String Unit)
    (command workingDir : String) : Except String Unit :=
  let absWorkingDir := filepathAbs procCwd workingDir
  let dir := IsDirectoryAllowed cfg absWorkingDir
  if ¬ dir.1 then Except.error ("directory validation failed: " ++ dir.2)
  else
    match parse command with
    | Except.error e => Except.error ("parse error: " ++ e)
    | Except.ok prog => runProg prog

/-! ### Shared lemmas about the validator -/

theorem isCommandExplicitlyDenied_of_find (cfg : ShellCommandConfig) (cmd : String)
    (e : DenyCommand) (hfind : cfg.denyCommands.find? (fun d => d.command = cmd) = some e) :
    isCommandExplicitlyDenied cfg cmd =
      (true, "command " ++ quoteStr cmd ++ " is denied: " ++
        (if e.message = "" then cfg.defaultErrorMessage else e.message)) := by
  rw [isCommandExplicitlyDenied, hfind]

theorem isCommandExplicitlyDenied_of_none (cfg : ShellCommandConfig) (cmd : String)
    (h : ∀ d ∈ cfg.denyCommands, d.command ≠ cmd) :
    isCommandExplicitlyDenied cfg cmd = (false, "") := by
  rw [isCommandExplicitlyDenied, List.find?_eq_none.2]
  intro d hd
  simpa using h d hd

/-- Any command with a matching deny entry is denied with that entry's
message, in every dispatch path (`xargs` included). -/
theorem ValidateCommand_denied (cfg : ShellCommandConfig) (procCwd cmd : String)
    (args : List String) (workDir : String) (e : DenyCommand)
    (hfind : cfg.denyCommands.find? (fun d => d.command = cmd) = some e) :
    ValidateCommand cfg procCwd cmd args workDir =
      (false, "command " ++ quoteStr cmd ++ " is denied: " ++
        (if e.message = "" then cfg.defaultErrorMessage else e.message)) := by
  by_cases hx : cmd = "xargs"
  · subst hx
    rw [ValidateCommand_xargs_eq, validateXargsCommand,
      isCommandExplicitlyDenied_of_find cfg "xargs" e hfind]
    rfl
  · rw [ValidateCommand_not_xargs cfg procCwd cmd args workDir hx,
      isCommandExplicitlyDenied_of_find cfg cmd e hfind]
    rfl

/-! ### C2: prefix-only directory and path containment -/

/-- Example policy for C2: only `/tmp` is allowed. -/
def cfgTmpOnly : ShellCommandConfig :=
  { allowedDirectories := ["/tmp"],
    allowCommands := [{ command := "cat" }],
    defaultErrorMessage := "Command not allowed by security policy" }

/-- C2.  Directory and path containment is a bare string-prefix comparison
with no separator boundary: any non-empty string with an allowed directory as
a textual prefix passes `IsDirectoryAllowed`, and any path whose normalised
absolute form textually extends an allowed directory passes
`IsPathInAllowedDirectory` — in particular `/tmpevil` and `/tmpevil/x` are
accepted under the allowed directory `/tmp` although they lie outside it. -/
theorem prefix_containment_no_boundary :
    (∀ (cfg : ShellCommandConfig) (d s : String),
       d ∈ cfg.allowedDirectories → s ≠ "" → hasPre s d = true →
       (IsDirectoryAllowed cfg s).1 = true) ∧
    (∀ (cfg : ShellCommandConfig) (procCwd path baseDir d : String),
       d ∈ cfg.allowedDirectories → path ≠ "" →
       hasPre (filepathAbs procCwd (filepathClean
           (if filepathIsAbs path then path else filepathJoin baseDir path)))
         (filepathAbs procCwd d) = true →
       (IsPathInAllowedDirectory cfg procCwd path baseDir).1 = true) := by
  constructor
  · intro cfg d s hd hs hpre
    rw [IsDirectoryAllowed, if_neg hs]
    have hany : cfg.allowedDirectories.any (fun x => hasPre s x) = true :=
      List.any_eq_true.2 ⟨d, hd, hpre⟩
    rw [if_pos hany]
  · intro cfg procCwd path baseDir d hd hp hpre
    rw [IsPathInAllowedDirectory, if_neg hp]
    dsimp only
    have hany : cfg.allowedDirectories.any
        (fun x => hasPre (filepathAbs procCwd (filepathClean
          (if filepathIsAbs path then path else filepathJoin baseDir path)))
          (filepathAbs procCwd x)) = true :=
      List.any_eq_true.2 ⟨d, hd, hpre⟩
    rw [if_pos hany]

/-- Witness for C2 at the claim's own examples: with allowed directory
`/tmp`, the directory `/tmpevil` and the path `/tmpevil/x` are accepted. -/
theorem prefix_containment_no_boundary_witness :
    (IsDirectoryAllowed cfgTmpOnly "/tmpevil").1 = true ∧
    (IsPathInAllowedDirectory cfgTmpOnly "/" "/tmpevil/x" "/tmp").1 = true := by
  constructor
  · exact prefix_containment_no_boundary.1 cfgTmpOnly "/tmp" "/tmpevil"
      (by decide) (by decide) (by decide)
  · exact prefix_containment_no_boundary.2 cfgTmpOnly "/" "/tmpevil/x" "/tmp" "/tmp"
      (by decide) (by decide) (by decide)

/-! ### C4: path normalisation and containment decision -/

/-- C4.  The path checker denies the empty path; otherwise it joins a
relative candidate with the base directory, collapses `..`/`.` and makes the
result absolute, and accepts exactly when some allowed directory (itself
normalised) is a textual prefix of the result.  Concretely,
`/tmp/../etc/x` normalises to `/etc/x` and is denied under allowed directory
`/tmp`, and `cat /etc/passwd` under `allowed_dirs = {/tmp}` is denied with
the `path "/etc/passwd" is outside of allowed directories` reason. -/
theorem path_checker_normalises_and_decides :
    (∀ (cfg : ShellCommandConfig) (procCwd baseDir : String),
       IsPathInAllowedDirectory cfg procCwd "" baseDir =
         (false, "empty path is not allowed")) ∧
    (∀ (cfg : ShellCommandConfig) (procCwd path baseDir : String),
       (IsPathInAllowedDirectory cfg procCwd path baseDir).1 = true ↔
         path ≠ "" ∧ ∃ d ∈ cfg.allowedDirectories,
           hasPre (filepathAbs procCwd (filepathClean
               (if filepathIsAbs path then path else filepathJoin baseDir path)))
             (filepathAbs procCwd d) = true) ∧
    filepathClean "/tmp/../etc/x" = "/etc/x" ∧
    IsPathInAllowedDirectory cfgTmpOnly "/" "/tmp/../etc/x" "/tmp" =
      (false,
       "path \"/tmp/../etc/x\" is outside of allowed directories: Command not allowed by security policy") ∧
    ValidateCommand cfgTmpOnly "/" "cat" ["/etc/passwd"] "/tmp" =
      (false,
       "path \"/etc/passwd\" is outside of allowed directories: Command not allowed by security policy") := by
  refine ⟨?_, ?_, by decide, by decide, by decide⟩
  · intro cfg procCwd baseDir
    rw [IsPathInAllowedDirectory, if_pos rfl]
  · intro cfg procCwd path baseDir
    by_cases hp : path = ""
    · subst hp
      rw [IsPathInAllowedDirectory, if_pos rfl]
      simp
    · rw [IsPathInAllowedDirectory, if_neg hp]
      dsimp only
      constructor
      · intro h
        refine ⟨hp, ?_⟩
        rcases hsplit : cfg.allowedDirectories.any
            (fun d => hasPre (filepathAbs procCwd (filepathClean
              (if filepathIsAbs path then path else filepathJoin baseDir path)))
              (filepathAbs procCwd d)) with hfalse | htrue
        · rw [hsplit] at h
          simp at h
        · exact List.any_eq_true.1 hsplit
      · rintro ⟨-, d, hd, hpre⟩
        have hany : cfg.allowedDirectories.any
            (fun x => hasPre (filepathAbs procCwd (filepathClean
              (if filepathIsAbs path then path else filepathJoin baseDir path)))
              (filepathAbs procCwd x)) = true :=
          List.any_eq_true.2 ⟨d, hd, hpre⟩
        rw [if_pos hany]

/-! ### C3: deny always wins -/

/-- C3.  A command named in both `deny_commands` and `allow_commands`
(`xargs` included, through its special dispatch) is always denied, with the
reason built from the deny entry's custom message when present and the
default message otherwise. -/
theorem deny_always_wins (cfg : ShellCommandConfig) (procCwd cmd : String)
    (args : List String) (workDir : String)
    (hdeny : ∃ d ∈ cfg.denyCommands, d.command = cmd)
    (hallow : ∃ a ∈ cfg.allowCommands, a.command = cmd) :
    (ValidateCommand cfg procCwd cmd args workDir).1 = false ∧
    ∃ e ∈ cfg.denyCommands, e.command = cmd ∧
      (ValidateCommand cfg procCwd cmd args workDir).2 =
        "command " ++ quoteStr cmd ++ " is denied: " ++
          (if e.message = "" then cfg.defaultErrorMessage else e.message) := by
  obtain ⟨d0, hd0, hdc⟩ := hdeny
  have hsome : (cfg.denyCommands.find? (fun d => d.command = cmd)).isSome := by
    rw [List.find?_isSome]
    exact ⟨d0, hd0, by simp [hdc]⟩
  obtain ⟨e, he⟩ := Option.isSome_iff_exists.1 hsome
  have heq := ValidateCommand_denied cfg procCwd cmd args workDir e he
  have hmem : e ∈ cfg.denyCommands := List.mem_of_find?_eq_some he
  have hec : e.command = cmd := by simpa using List.find?_some he
  exact ⟨by rw [heq], e, hmem, hec, by rw [heq]⟩

/-- Example policy for C3: `rm` and `xargs` appear in both lists. -/
def cfgDenyAndAllow : ShellCommandConfig :=
  { allowedDirectories := ["/tmp"],
    allowCommands := [{ command := "rm" }, { command := "xargs" }],
    denyCommands := [{ command := "rm", message := "Remove command is not allowed" },
                     { command := "xargs" }],
    defaultErrorMessage := "Command not allowed by security policy" }

/-- Witness for C3: both `rm` and the specially dispatched `xargs` are denied
when they appear in both lists. -/
theorem deny_always_wins_witness :
    (ValidateCommand cfgDenyAndAllow "/" "rm" ["-rf", "/"] "/tmp").1 = false ∧
    (ValidateCommand cfgDenyAndAllow "/" "xargs" ["echo", "hi"] "/tmp").1 = false := by
  constructor
  · exact (deny_always_wins cfgDenyAndAllow "/" "rm" ["-rf", "/"] "/tmp"
      (by decide) (by decide)).1
  · exact (deny_always_wins cfgDenyAndAllow "/" "xargs" ["echo", "hi"] "/tmp"
      (by decide) (by decide)).1

/-! ### C5: the xargs dispatch -/

/-- C5.  For `xargs` invocations the validator first applies the deny and
allow gates to `xargs` itself with the usual messages, then parses the
argument list and recursively validates the nested command with the nested
arguments and the same working directory; a nested denial is propagated with
the `xargs would execute disallowed command: ` prefix, and a nested pass
makes the whole invocation pass. -/
theorem xargs_dispatch (cfg : ShellCommandConfig) (procCwd : String) (args : List String)
    (workDir : String) :
    (∀ e : DenyCommand, cfg.denyCommands.find? (fun d => d.command = "xargs") = some e →
       ValidateCommand cfg procCwd "xargs" args workDir =
         (false, "command " ++ quoteStr "xargs" ++ " is denied: " ++
           (if e.message = "" then cfg.defaultErrorMessage else e.message))) ∧
    ((∀ d ∈ cfg.denyCommands, d.command ≠ "xargs") →
     cfg.IsCommandAllowed "xargs" = false →
       ValidateCommand cfg procCwd "xargs" args workDir =
         (false, "command " ++ quoteStr "xargs" ++ " is not permitted: " ++
           cfg.defaultErrorMessage)) ∧
    (∀ (c : String) (as : List String) (m : String),
       (∀ d ∈ cfg.denyCommands, d.command ≠ "xargs") →
       cfg.IsCommandAllowed "xargs" = true →
       ParseXargsCommand args = (c, as, true, "") →
       ValidateCommand cfg procCwd c as workDir = (false, m) →
       ValidateCommand cfg procCwd "xargs" args workDir =
         (false, "xargs would execute disallowed command: " ++ m)) ∧
    (∀ (c : String) (as : List String),
       (∀ d ∈ cfg.denyCommands, d.command ≠ "xargs") →
       cfg.IsCommandAllowed "xargs" = true →
       ParseXargsCommand args = (c, as, true, "") →
       (ValidateCommand cfg procCwd c as workDir).1 = true →
       ValidateCommand cfg procCwd "xargs" args workDir = (true, "")) := by
  refine ⟨?_, ?_, ?_, ?_⟩
  · intro e he
    exact ValidateCommand_denied cfg procCwd "xargs" args workDir e he
  · intro hnd hna
    rw [ValidateCommand_xargs_eq, validateXargsCommand,
      isCommandExplicitlyDenied_of_none cfg "xargs" hnd]
    simp [hna]
  · intro c as m hnd ha hp hn
    rw [ValidateCommand_xargs_eq, validateXargsCommand,
      isCommandExplicitlyDenied_of_none cfg "xargs" hnd]
    simp [ha, hp, hn]
  · intro c as hnd ha hp hn
    rw [ValidateCommand_xargs_eq, validateXargsCommand,
      isCommandExplicitlyDenied_of_none cfg "xargs" hnd]
    simp [ha, hp, hn]

/-- Example policy for C5: `xargs` and `echo` allowed, `rm` denied. -/
def cfgXargsEcho : ShellCommandConfig :=
  { allowedDirectories := ["/tmp"],
    allowCommands := [{ command := "xargs" }, { command := "echo" }],
    denyCommands := [{ command := "rm", message := "Remove command is not allowed" }],
    defaultErrorMessage := "Command not allowed by security policy" }

/-- Witness for C5: `xargs rm` propagates the nested denial of `rm` with the
prefix, and `xargs echo hi` passes. -/
theorem xargs_dispatch_witness :
    ValidateCommand cfgXargsEcho "/" "xargs" ["rm"] "/tmp" =
      (false, "xargs would execute disallowed command: " ++
        "command \"rm\" is denied: Remove command is not allowed") ∧
    ValidateCommand cfgXargsEcho "/" "xargs" ["echo", "hi"] "/tmp" = (true, "") := by
  constructor
  · exact (xargs_dispatch cfgXargsEcho "/" ["rm"] "/tmp").2.2.1 "rm" []
      "command \"rm\" is denied: Remove command is not allowed"
      (by decide) (by decide) (by decide) (by decide)
  · exact (xargs_dispatch cfgXargsEcho "/" ["echo", "hi"] "/tmp").2.2.2 "echo" ["hi"]
      (by decide) (by decide) (by decide) (by decide)

/-! ### C9: the sub-command gate -/

/-- Example policy for the C9 counterexample: an allow entry gives `xargs`
the sub-command allow-list `["rm"]`. -/
def cfgXargsSubs : ShellCommandConfig :=
  { allowedDirectories := ["/tmp"],
    allowCommands := [{ command := "xargs", subCommands := ["rm"] },
                      { command := "echo" }],
    denyCommands := [],
    defaultErrorMessage := "Command not allowed by security policy" }

/-- Counterexample to C9 as stated: the allow entry for `xargs` specifies
`allow_subs = ["rm"]` and the invocation `xargs echo hi` has
`args[0] = "echo" ∉ allow_subs`, so the claim requires a denial — but the
`xargs` dispatch bypasses the sub-command gate and the invocation is
accepted. -/
theorem subcommand_gate_counterexample :
    cfgXargsSubs.allowCommands.find? (fun a => a.command = "xargs") =
      some { command := "xargs", subCommands := ["rm"] } ∧
    "echo" ∉ ({ command := "xargs", subCommands := ["rm"] } : AllowCommand).subCommands ∧
    ValidateCommand cfgXargsSubs "/" "xargs" ["echo", "hi"] "/tmp" = (true, "") := by
  decide

/-- Unfolding of `ValidateCommand` for a non-`xargs` command with no deny
entry and a first matching allow entry. -/
theorem ValidateCommand_allowed_entry (cfg : ShellCommandConfig) (procCwd cmd : String)
    (args : List String) (workDir : String) (e : AllowCommand)
    (hx : cmd ≠ "xargs")
    (hnodeny : ∀ d ∈ cfg.denyCommands, d.command ≠ cmd)
    (hfind : cfg.allowCommands.find? (fun a => a.command = cmd) = some e) :
    ValidateCommand cfg procCwd cmd args workDir =
      (if e.subCommands = [] ∧ e.denySubCommands = [] then
        validatePathArguments cfg procCwd args workDir
      else if ¬ (checkSubCommandPermissions cmd args e).1 then
        (false, (checkSubCommandPermissions cmd args e).2)
      else validatePathArguments cfg procCwd args workDir) := by
  rw [ValidateCommand_not_xargs cfg procCwd cmd args workDir hx,
    isCommandExplicitlyDenied_of_none cfg cmd hnodeny]
  simp only [hfind]
  simp

theorem checkSubCommandPermissions_not_allowed (cmd arg0 : String) (rest : List String)
    (e : AllowCommand) (h1 : e.subCommands ≠ []) (h2 : arg0 ∉ e.subCommands) :
    checkSubCommandPermissions cmd (arg0 :: rest) e =
      (false, "subcommand " ++ quoteStr arg0 ++ " is not allowed for command " ++
        quoteStr cmd) := by
  rw [checkSubCommandPermissions, if_pos ⟨h1, by simpa using h2⟩]

theorem checkSubCommandPermissions_denied (cmd arg0 : String) (rest : List String)
    (e : AllowCommand) (h1 : arg0 ∈ e.subCommands) (h2 : arg0 ∈ e.denySubCommands) :
    checkSubCommandPermissions cmd (arg0 :: rest) e =
      (false, "subcommand " ++ quoteStr arg0 ++ " is denied for command " ++
        quoteStr cmd) := by
  have hc1 : ¬ (e.subCommands ≠ [] ∧ ¬ e.subCommands.contains arg0 = true) := by
    rintro ⟨-, hnc⟩
    exact hnc (by simpa using h1)
  have hne : e.denySubCommands ≠ [] := by
    intro h0
    rw [h0] at h2
    simp at h2
  rw [checkSubCommandPermissions, if_neg hc1, if_pos ⟨hne, by simpa using h2⟩]

/-- C9 amended: for every command other than the specially dispatched
`xargs`, not named in `deny_commands`, whose first matching allow entry
specifies `allow_subs`: a non-empty invocation is denied with the exact
`subcommand "Y" is not allowed for command "X"` reason when `args[0]` is not
in `allow_subs`; when `args[0]` is in `allow_subs` but also in `deny_subs`
it is denied with the `subcommand "Y" is denied for command "X"` reason; and
an empty invocation is not denied by the sub-command gate. -/
theorem subcommand_gate_amended (cfg : ShellCommandConfig) (procCwd cmd : String)
    (workDir : String) (e : AllowCommand)
    (hx : cmd ≠ "xargs")
    (hnodeny : ∀ d ∈ cfg.denyCommands, d.command ≠ cmd)
    (hfind : cfg.allowCommands.find? (fun a => a.command = cmd) = some e)
    (hsubs : e.subCommands ≠ []) :
    (∀ (arg0 : String) (rest : List String), arg0 ∉ e.subCommands →
       ValidateCommand cfg procCwd cmd (arg0 :: rest) workDir =
         (false, "subcommand " ++ quoteStr arg0 ++ " is not allowed for command " ++
           quoteStr cmd)) ∧
    (∀ (arg0 : String) (rest : List String),
       arg0 ∈ e.subCommands → arg0 ∈ e.denySubCommands →
       ValidateCommand cfg procCwd cmd (arg0 :: rest) workDir =
         (false, "subcommand " ++ quoteStr arg0 ++ " is denied for command " ++
           quoteStr cmd)) ∧
    ValidateCommand cfg procCwd cmd [] workDir = (true, "") := by
  refine ⟨?_, ?_, ?_⟩
  · intro arg0 rest hnotin
    rw [ValidateCommand_allowed_entry cfg procCwd cmd (arg0 :: rest) workDir e hx hnodeny hfind,
      if_neg (fun hand => hsubs hand.1),
      checkSubCommandPermissions_not_allowed cmd arg0 rest e hsubs hnotin]
    simp
  · intro arg0 rest hin hdenyin
    rw [ValidateCommand_allowed_entry cfg procCwd cmd (arg0 :: rest) workDir e hx hnodeny hfind,
      if_neg (fun hand => hsubs hand.1),
      checkSubCommandPermissions_denied cmd arg0 rest e hin hdenyin]
    simp
  · rw [ValidateCommand_allowed_entry cfg procCwd cmd [] workDir e hx hnodeny hfind]
    have hc : checkSubCommandPermissions cmd [] e = (true, "") := rfl
    rw [hc]
    split
    · rfl
    · simp [validatePathArguments]

/-- Witness for the amended C9, on a `git` policy with
`allow_subs = {status, log}`, `deny_subs = {push}` (`status` also placed in
`deny_subs` to exercise the deny-subs reason). -/
theorem subcommand_gate_amended_witness :
    ValidateCommand
      { allowedDirectories := ["/tmp"],
        allowCommands := [{ command := "git", subCommands := ["status", "log"],
                            denySubCommands := ["status"] }],
        denyCommands := [],
        defaultErrorMessage := "no" }
      "/" "git" ["push"] "/tmp" =
      (false, "subcommand " ++ quoteStr "push" ++ " is not allowed for command " ++
        quoteStr "git") ∧
    ValidateCommand
      { allowedDirectories := ["/tmp"],
        allowCommands := [{ command := "git", subCommands := ["status", "log"],
                            denySubCommands := ["status"] }],
        denyCommands := [],
        defaultErrorMessage := "no" }
      "/" "git" ["status"] "/tmp" =
      (false, "subcommand " ++ quoteStr "status" ++ " is denied for command " ++
        quoteStr "git") ∧
    ValidateCommand
      { allowedDirectories := ["/tmp"],
        allowCommands := [{ command := "git", subCommands := ["status", "log"],
                            denySubCommands := ["status"] }],
        denyCommands := [],
        defaultErrorMessage := "no" }
      "/" "git" [] "/tmp" = (true, "") := by
  refine ⟨?_, ?_, ?_⟩
  · exact (subcommand_gate_amended _ "/" "git" "/tmp"
      { command := "git", subCommands := ["status", "log"], denySubCommands := ["status"] }
      (by decide) (by decide) (by decide) (by decide)).1 "push" [] (by decide)
  · exact (subcommand_gate_amended _ "/" "git" "/tmp"
      { command := "git", subCommands := ["status", "log"], denySubCommands := ["status"] }
      (by decide) (by decide) (by decide) (by decide)).2.1 "status" [] (by decide) (by decide)
  · exact (subcommand_gate_amended _ "/" "git" "/tmp"
      { command := "git", subCommands := ["status", "log"], denySubCommands := ["status"] }
      (by decide) (by decide) (by decide) (by decide)).2.2

/-! ### C8: the xargs parser's case analysis -/

/-- Following C8's words: the suffix of the argument list that remains after
skipping flags, where each value-taking flag also consumes the following
token as its value (so a list ending in a lone value-taking flag is consumed
entirely). -/
def skipFlags : List String → List String
  | [] => []
  | a :: rest =>
    if ¬ hasPre a "-" then a :: rest
    else if isFlagWithArg a then
      match rest with
      | [] => []
      | _ :: rest2 => skipFlags rest2
    else skipFlags rest

theorem findCommandAfterFlags_skipFlags_aux (n : Nat) : ∀ args : List String,
    args.length ≤ n →
    findCommandAfterFlags args =
      (match skipFlags args with | [] => none | c :: as => some (c, as)) := by
  induction n with
  | zero =>
    intro args hlen
    match args with
    | [] => rfl
    | a :: rest => simp at hlen
  | succ n ih =>
    intro args hlen
    match args with
    | [] => rfl
    | a :: rest =>
      rw [findCommandAfterFlags.eq_def, skipFlags.eq_def]
      dsimp only
      by_cases h1 : hasPre a "-" = true
      · have hc1 : ¬ (¬ hasPre a "-" = true) := by simp [h1]
        rw [if_neg hc1, if_neg hc1]
        by_cases h2 : isFlagWithArg a = true
        · rw [if_pos h2, if_pos h2]
          match rest with
          | [] => rfl
          | b :: rest2 =>
            have hlen2 : rest2.length ≤ n := by simp at hlen; omega
            exact ih rest2 hlen2
        · rw [if_neg h2, if_neg h2]
          have hlen1 : rest.length ≤ n := by simp at hlen; omega
          exact ih rest hlen1
      · have hc1 : (¬ hasPre a "-" = true) := by simp [h1]
        rw [if_pos hc1, if_pos hc1]

/-- `findCommandAfterFlags` is exactly "take the first token of the suffix
left after skipping flag (and value) tokens". -/
theorem findCommandAfterFlags_skipFlags (args : List String) :
    findCommandAfterFlags args =
      (match skipFlags args with | [] => none | c :: as => some (c, as)) :=
  findCommandAfterFlags_skipFlags_aux args.length args le_rfl

/-- With no `-exec`/`--exec` before the last position the exec scan finds
nothing. -/
theorem findExecCommand_eq_none : ∀ (args : List String),
    (∀ x ∈ args.dropLast, ¬ (x = "-exec" ∨ x = "--exec")) →
    findExecCommand args = none
  | [], _ => rfl
  | [a], _ => rfl
  | a :: b :: rest, h => by
    rw [findExecCommand]
    have hmem : a ∈ (a :: b :: rest).dropLast := by
      rw [show (a :: b :: rest).dropLast = a :: (b :: rest).dropLast from rfl]
      exact List.mem_cons_self a _
    rw [if_neg (h a hmem)]
    refine findExecCommand_eq_none (b :: rest) (fun x hx => h x ?_)
    rw [show (a :: b :: rest).dropLast = a :: (b :: rest).dropLast from rfl]
    exact List.mem_cons_of_mem a hx

/-- The first `-exec`/`--exec` with a successor token yields that successor
as the command and the remaining tokens as its arguments. -/
theorem findExecCommand_append : ∀ (l₁ : List String) (e c : String) (l₂ : List String),
    (e = "-exec" ∨ e = "--exec") → (∀ x ∈ l₁, ¬ (x = "-exec" ∨ x = "--exec")) →
    findExecCommand (l₁ ++ e :: c :: l₂) = some (c, l₂)
  | [], e, c, l₂, he, _ => by
    rw [List.nil_append, findExecCommand, if_pos he]
  | [a], e, c, l₂, he, h => by
    rw [List.cons_append, List.nil_append, findExecCommand,
      if_neg (h a (List.mem_singleton_self a)), findExecCommand, if_pos he]
  | a :: a2 :: l₁, e, c, l₂, he, h => by
    rw [List.cons_append, List.cons_append, findExecCommand,
      if_neg (h a (List.mem_cons_self a _))]
    have hrec := findExecCommand_append (a2 :: l₁) e c l₂ he
      (fun x hx => h x (List.mem_cons_of_mem a hx))
    rw [List.cons_append] at hrec
    exact hrec

/-- C8.  The xargs parser: the empty list fails with "no arguments provided
to xargs"; a non-empty list that is all flags (counting each value-taking
flag's value token, a trailing lone value-taking flag included) and has no
`-exec`/`--exec` before the last position fails with "unable to determine
command to be executed by xargs"; when `-exec`/`--exec` first appears before
the last position the following token is the nested command and the rest its
arguments; otherwise the first non-flag token after skipping flag-and-value
pairs is the nested command and the tokens after it its arguments. -/
theorem xargs_parser_cases (args : List String) :
    ParseXargsCommand [] = ("", [], false, "no arguments provided to xargs") ∧
    (args ≠ [] →
     (∀ x ∈ args.dropLast, ¬ (x = "-exec" ∨ x = "--exec")) →
     skipFlags args = [] →
     ParseXargsCommand args =
       ("", [], false, "unable to determine command to be executed by xargs")) ∧
    (∀ (l₁ : List String) (e c : String) (l₂ : List String),
       (e = "-exec" ∨ e = "--exec") →
       (∀ x ∈ l₁, ¬ (x = "-exec" ∨ x = "--exec")) →
       args = l₁ ++ e :: c :: l₂ →
       ParseXargsCommand args = (c, l₂, true, "")) ∧
    (∀ (c : String) (as : List String),
       (∀ x ∈ args.dropLast, ¬ (x = "-exec" ∨ x = "--exec")) →
       skipFlags args = c :: as →
       ParseXargsCommand args = (c, as, true, "")) := by
  refine ⟨rfl, ?_, ?_, ?_⟩
  · intro hne hnoexec hskip
    rw [ParseXargsCommand, if_neg hne, findExecCommand_eq_none args hnoexec,
      findCommandAfterFlags_skipFlags args, hskip]
  · intro l₁ e c l₂ he hl₁ hargs
    subst hargs
    have hne : l₁ ++ e :: c :: l₂ ≠ [] := by simp
    rw [ParseXargsCommand, if_neg hne, findExecCommand_append l₁ e c l₂ he hl₁]
  · intro c as hnoexec hskip
    have hne : args ≠ [] := by
      intro h0
      rw [h0] at hskip
      simp [skipFlags] at hskip
    rw [ParseXargsCommand, if_neg hne, findExecCommand_eq_none args hnoexec,
      findCommandAfterFlags_skipFlags args, hskip]

/-- Witness for C8 on the source's own test vectors: only flags fails as
unable-to-determine, `-exec` selects the following token, and flag skipping
selects the first non-flag token. -/
theorem xargs_parser_cases_witness :
    ParseXargsCommand ["-L", "1", "-n", "1"] =
      ("", [], false, "unable to determine command to be executed by xargs") ∧
    ParseXargsCommand ["-n", "1", "-exec", "grep", "pat"] = ("grep", ["pat"], true, "") ∧
    ParseXargsCommand ["-L", "1", "echo", "line"] = ("echo", ["line"], true, "") := by
  refine ⟨?_, ?_, ?_⟩
  · exact (xargs_parser_cases ["-L", "1", "-n", "1"]).2.1 (by decide) (by decide) (by decide)
  · exact (xargs_parser_cases ["-n", "1", "-exec", "grep", "pat"]).2.2.1
      ["-n", "1"] "-exec" "grep" ["pat"] (by decide) (by decide) (by decide)
  · exact (xargs_parser_cases ["-L", "1", "echo", "line"]).2.2.2 "echo" ["line"]
      (by decide) (by decide)

/-! ### C1: the find dispatch (spec-modelled) -/

theorem checkFindExecCommands_all (cfg : ShellCommandConfig) (procCwd workDir : String) :
    ∀ l : List String, (∀ c ∈ l, (ValidateCommand cfg procCwd c [] workDir).1 = true) →
    checkFindExecCommands cfg procCwd workDir l = (true, "")
  | [], _ => rfl
  | c :: rest, h => by
    have hc := h c (List.mem_cons_self c rest)
    rw [checkFindExecCommands]
    rw [if_neg (fun hn => hn hc)]
    exact checkFindExecCommands_all cfg procCwd workDir rest
      (fun c' hc' => h c' (List.mem_cons_of_mem c hc'))

theorem checkFindExecCommands_first_fail (cfg : ShellCommandConfig)
    (procCwd workDir : String) :
    ∀ (l₁ : List String) (c : String) (l₂ : List String) (m : String),
    (∀ c' ∈ l₁, (ValidateCommand cfg procCwd c' [] workDir).1 = true) →
    ValidateCommand cfg procCwd c [] workDir = (false, m) →
    checkFindExecCommands cfg procCwd workDir (l₁ ++ c :: l₂) =
      (false, "find command contains disallowed -exec: " ++ m)
  | [], c, l₂, m, _, hfail => by
    rw [List.nil_append, checkFindExecCommands]
    rw [hfail]
    rfl
  | c' :: l₁, c, l₂, m, hprev, hfail => by
    have hc' := hprev c' (List.mem_cons_self c' l₁)
    rw [List.cons_append, checkFindExecCommands]
    rw [if_neg (fun hn => hn hc')]
    exact checkFindExecCommands_first_fail cfg procCwd workDir l₁ c l₂ m
      (fun x hx => hprev x (List.mem_cons_of_mem c' hx)) hfail

/-- When the ordinary checks pass for `find` itself, the find dispatch is
exactly "validate every extracted `-exec` command operand". -/
theorem ValidateCommandWithFind_find_eq (cfg : ShellCommandConfig) (procCwd : String)
    (args : List String) (workDir : String)
    (hbase : (ValidateCommand cfg procCwd "find" args workDir).1 = true) :
    ValidateCommandWithFind cfg procCwd "find" args workDir =
      (if extractExecCommands args = [] then (true, "")
       else checkFindExecCommands cfg procCwd workDir (extractExecCommands args)) := by
  rw [ValidateCommandWithFind, if_pos rfl]
  dsimp only
  rw [if_neg (fun hn => hn hbase)]
  rw [ParseFindExecArgs]
  by_cases ha : args = []
  · subst ha
    simp [extractExecCommands, extractExecCommandsF]
  · simp only [if_neg ha]
    by_cases hc : extractExecCommands args = []
    · simp [hc]
    · simp [hc]

/-- C1.  (Spec-modelled `find` branch.)  Once the deny, allow, sub-command
and path checks pass for the `find` invocation itself, the validator runs the
find parser over the argument list; the invocation is accepted when every
command operand extracted from a `-exec`/`-execdir` clause validates, and the
first extracted command that fails to validate denies the whole invocation
with reason `find command contains disallowed -exec: <inner reason>`. -/
theorem find_exec_dispatch (cfg : ShellCommandConfig) (procCwd : String)
    (args : List String) (workDir : String)
    (hbase : (ValidateCommand cfg procCwd "find" args workDir).1 = true) :
    ((∀ c ∈ extractExecCommands args, (ValidateCommand cfg procCwd c [] workDir).1 = true) →
       (ValidateCommandWithFind cfg procCwd "find" args workDir).1 = true) ∧
    (∀ (l₁ : List String) (c : String) (l₂ : List String) (m : String),
       extractExecCommands args = l₁ ++ c :: l₂ →
       (∀ c' ∈ l₁, (ValidateCommand cfg procCwd c' [] workDir).1 = true) →
       ValidateCommand cfg procCwd c [] workDir = (false, m) →
       ValidateCommandWithFind cfg procCwd "find" args workDir =
         (false, "find command contains disallowed -exec: " ++ m)) := by
  constructor
  · intro hall
    rw [ValidateCommandWithFind_find_eq cfg procCwd args workDir hbase]
    by_cases hc : extractExecCommands args = []
    · simp [hc]
    · rw [if_neg hc, checkFindExecCommands_all cfg procCwd workDir _ hall]
  · intro l₁ c l₂ m hdecomp hprev hfail
    rw [ValidateCommandWithFind_find_eq cfg procCwd args workDir hbase]
    have hne : extractExecCommands args ≠ [] := by
      rw [hdecomp]
      simp
    rw [if_neg hne, hdecomp,
      checkFindExecCommands_first_fail cfg procCwd workDir l₁ c l₂ m hprev hfail]

/-- Example policy for C1, following the find tests: `find` and `echo`
allowed, `rm` denied. -/
def cfgFindPolicy : ShellCommandConfig :=
  { allowedDirectories := ["/tmp"],
    allowCommands := [{ command := "find" }, { command := "echo" }],
    denyCommands := [{ command := "rm", message := "Remove command is not allowed" }],
    defaultErrorMessage := "Command not allowed by security policy" }

/-- Witness for C1 at the find tests' vector: `find -type f -exec rm -f {}
\;` passes the checks for `find` itself but the extracted `rm` is denied, so
the whole invocation is denied with the prefixed reason; with `echo` in place
of `rm` it is accepted. -/
theorem find_exec_dispatch_witness :
    ValidateCommandWithFind cfgFindPolicy "/" "find"
      ["-type", "f", "-exec", "rm", "-f", "\x7b\x7d", "\\;"] "/tmp" =
      (false, "find command contains disallowed -exec: " ++
        "command \"rm\" is denied: Remove command is not allowed") ∧
    (ValidateCommandWithFind cfgFindPolicy "/" "find"
      ["-type", "f", "-exec", "echo", "\x7b\x7d", "\\;"] "/tmp").1 = true := by
  constructor
  · exact (find_exec_dispatch cfgFindPolicy "/"
      ["-type", "f", "-exec", "rm", "-f", "\x7b\x7d", "\\;"] "/tmp" (by decide)).2
      [] "rm" [] "command \"rm\" is denied: Remove command is not allowed"
      (by decide) (by decide) (by decide)
  · exact (find_exec_dispatch cfgFindPolicy "/"
      ["-type", "f", "-exec", "echo", "\x7b\x7d", "\\;"] "/tmp" (by decide)).1
      (by decide)

/-! ### C10: runner failure order -/

/-- C10.  `RunCommand` resolves the working directory and checks it before
anything else: a rejected directory yields the request-fatal directory error
for every parser and interpreter whatsoever (no parsing is attempted), and
only with an accepted directory is the source parsed, a parse failure being
request-fatal with a message extending "parse error: ". -/
theorem runner_failure_order {α β : Type} (cfg : ShellCommandConfig)
    (procCwd command workingDir : String) :
    ((IsDirectoryAllowed cfg (filepathAbs procCwd workingDir)).1 = false →
       ∀ (parse : String → Except String α) (runProg : α → Except String Unit),
         RunCommand cfg procCwd parse runProg command workingDir =
           Except.error ("directory validation failed: " ++
             (IsDirectoryAllowed cfg (filepathAbs procCwd workingDir)).2)) ∧
    (∀ (parse : String → Except String β) (runProg : β → Except String Unit) (e : String),
       (IsDirectoryAllowed cfg (filepathAbs procCwd workingDir)).1 = true →
       parse command = Except.error e →
       RunCommand cfg procCwd parse runProg command workingDir =
         Except.error ("parse error: " ++ e)) := by
  constructor
  · intro hdir parse runProg
    rw [RunCommand]
    have hc : ¬ (IsDirectoryAllowed cfg (filepathAbs procCwd workingDir)).1 = true := by
      simp [hdir]
    rw [if_pos hc]
  · intro parse runProg e hdir hparse
    rw [RunCommand]
    have hc : ¬ ¬ (IsDirectoryAllowed cfg (filepathAbs procCwd workingDir)).1 = true := by
      simp [hdir]
    rw [if_neg hc, hparse]

/-- Witness for C10: under allowed directory `/tmp`, a request in `/etc` is
rejected with the directory error whatever the parser does, and a parser
failure in `/tmp` surfaces as a "parse error: " message. -/
theorem runner_failure_order_witness :
    RunCommand cfgTmpOnly "/" (fun _ => Except.ok ()) (fun _ : Unit => Except.ok ())
      "echo hi" "/etc" =
      Except.error
        "directory validation failed: directory \"/etc\" is not allowed: Command not allowed by security policy" ∧
    RunCommand cfgTmpOnly "/" (fun _ => Except.error "boom") (fun _ : Unit => Except.ok ())
      "echo hi" "/tmp" =
      Except.error "parse error: boom" := by
  constructor
  · exact ((@runner_failure_order Unit Unit cfgTmpOnly "/" "echo hi" "/etc").1
      (by decide) (fun _ => Except.ok ()) (fun _ => Except.ok ())).trans
      (congrArg Except.error (by decide))
  · exact ((@runner_failure_order Unit Unit cfgTmpOnly "/" "echo hi" "/tmp").2
      (fun _ => Except.error "boom") (fun _ => Except.ok ()) "boom"
      (by decide) rfl).trans (congrArg Except.error (by decide))

/-! ### Limiter lemmas for C6 and C7 -/

theorem payloadBytes_append (s l : List Chunk) :
    payloadBytes (s ++ l) = payloadBytes s + payloadBytes l := by
  simp [payloadBytes]

theorem markersOf_append (s l : List Chunk) :
    markersOf (s ++ l) = markersOf s ++ markersOf l := by
  simp [markersOf]

theorem Write_fst (ol : OutputLimiter) (p : List Char) :
    (ol.Write p).1 = ((p.length : Int), none) := by
  rw [OutputLimiter.Write]
  dsimp only
  split
  · rfl
  · split
    · rfl
    · split
      · rfl
      · rfl

theorem Write_maxBytes (ol : OutputLimiter) (p : List Char) :
    (ol.Write p).2.maxBytes = ol.maxBytes := by
  rw [OutputLimiter.Write]
  dsimp only
  split
  · rfl
  · split
    · rfl
    · split
      · rfl
      · rfl

theorem Write_def_truncated (ol : OutputLimiter) (p : List Char)
    (h : ol.truncated = true) :
    ol.Write p = (((p.length : Int), none),
      { ol with totalInputBytes := ol.totalInputBytes + p.length }) := by
  rw [OutputLimiter.Write]
  dsimp only
  rw [if_pos h]

theorem Write_def_at_limit (ol : OutputLimiter) (p : List Char)
    (h : ol.truncated = false) (h2 : ol.maxBytes - ol.bytesWritten ≤ 0) :
    ol.Write p = (((p.length : Int), none),
      { ol with
          totalInputBytes := ol.totalInputBytes + p.length,
          sink := ol.sink ++ [Chunk.marker
            (truncMsg ol.maxBytes (ol.totalInputBytes + p.length - ol.bytesWritten))],
          truncated := true }) := by
  rw [OutputLimiter.Write]
  dsimp only
  rw [if_neg (by simp [h]), if_pos h2]
  rfl

theorem Write_def_overflow (ol : OutputLimiter) (p : List Char)
    (h : ol.truncated = false) (h2 : ¬ ol.maxBytes - ol.bytesWritten ≤ 0)
    (h3 : (p.length : Int) > ol.maxBytes - ol.bytesWritten) :
    ol.Write p = (((p.length : Int), none),
      { ol with
          totalInputBytes := ol.totalInputBytes + p.length,
          sink := ol.sink ++ [Chunk.payload (p.take (ol.maxBytes - ol.bytesWritten).toNat)]
            ++ [Chunk.marker (truncMsg ol.maxBytes
              (ol.totalInputBytes + p.length -
                (ol.bytesWritten + (ol.maxBytes - ol.bytesWritten))))],
          bytesWritten := ol.bytesWritten + (ol.maxBytes - ol.bytesWritten),
          truncated := true }) := by
  rw [OutputLimiter.Write]
  dsimp only
  rw [if_neg (by simp [h]), if_neg h2, if_pos h3]
  rfl

theorem Write_def_fits (ol : OutputLimiter) (p : List Char)
    (h : ol.truncated = false) (h2 : ¬ ol.maxBytes - ol.bytesWritten ≤ 0)
    (h3 : ¬ (p.length : Int) > ol.maxBytes - ol.bytesWritten) :
    ol.Write p = (((p.length : Int), none),
      { ol with
          totalInputBytes := ol.totalInputBytes + p.length,
          sink := ol.sink ++ [Chunk.payload p],
          bytesWritten := ol.bytesWritten + (p.length : Int) }) := by
  rw [OutputLimiter.Write]
  dsimp only
  rw [if_neg (by simp [h]), if_neg h2, if_neg h3]

/-- The reachability invariant of a limiter state: the sink's payload byte
count is `bytesWritten`; while untruncated no marker has been emitted,
everything received was forwarded and the limit not exceeded; once truncated
there is exactly one marker, the sink holds exactly `maxBytes` payload bytes
and at least `maxBytes` bytes came in. -/
def LimInv (ol : OutputLimiter) : Prop :=
  payloadBytes ol.sink = ol.bytesWritten ∧
  (ol.truncated = true →
    (∃ M, 0 ≤ M ∧ markersOf ol.sink = [truncMsg ol.maxBytes M]) ∧
    ol.bytesWritten = ol.maxBytes ∧ ol.maxBytes ≤ ol.totalInputBytes) ∧
  (ol.truncated = false →
    markersOf ol.sink = [] ∧ ol.bytesWritten = ol.totalInputBytes ∧
    ol.totalInputBytes ≤ ol.maxBytes)

theorem LimInv_new (max : Int) (h : 0 ≤ max) : LimInv (NewOutputLimiter max) := by
  refine ⟨rfl, ?_, ?_⟩
  · intro ht
    simp [NewOutputLimiter] at ht
  · intro _
    exact ⟨rfl, rfl, h⟩

theorem LimInv_write (ol : OutputLimiter) (p : List Char) (h : LimInv ol) :
    LimInv (ol.Write p).2 := by
  obtain ⟨hpay, htr, hntr⟩ := h
  by_cases ht : ol.truncated = true
  · obtain ⟨⟨M, hM0, hMeq⟩, hbw, hmax⟩ := htr ht
    rw [Write_def_truncated ol p ht]
    refine ⟨hpay, ?_, ?_⟩
    · intro _
      exact ⟨⟨M, hM0, hMeq⟩, hbw, by dsimp only; omega⟩
    · intro hcontr
      dsimp only at hcontr
      rw [ht] at hcontr
      cases hcontr
  · have ht' : ol.truncated = false := by
      cases h0 : ol.truncated
      · rfl
      · exact absurd h0 ht
    obtain ⟨hmk, hbw, hle⟩ := hntr ht'
    by_cases h2 : ol.maxBytes - ol.bytesWritten ≤ 0
    · rw [Write_def_at_limit ol p ht' h2]
      refine ⟨?_, ?_, ?_⟩
      · dsimp only
        rw [payloadBytes_append, hpay]
        simp [payloadBytes, chunkPayloadBytes]
      · intro _
        dsimp only
        refine ⟨⟨ol.totalInputBytes + p.length - ol.bytesWritten, by omega, ?_⟩, by omega, by omega⟩
        rw [markersOf_append, hmk]
        simp [markersOf]
      · intro hcontr
        dsimp only at hcontr
        cases hcontr
    · by_cases h3 : (p.length : Int) > ol.maxBytes - ol.bytesWritten
      · rw [Write_def_overflow ol p ht' h2 h3]
        have htake : ((p.take (ol.maxBytes - ol.bytesWritten).toNat).length : Int) =
            ol.maxBytes - ol.bytesWritten := by
          rw [List.length_take]
          omega
        refine ⟨?_, ?_, ?_⟩
        · dsimp only
          rw [payloadBytes_append, payloadBytes_append, hpay]
          simp only [payloadBytes, chunkPayloadBytes, List.map_cons, List.map_nil,
            List.sum_cons, List.sum_nil]
          omega
        · intro _
          dsimp only
          refine ⟨⟨ol.totalInputBytes + p.length -
              (ol.bytesWritten + (ol.maxBytes - ol.bytesWritten)), by omega, ?_⟩,
            by omega, by omega⟩
          rw [markersOf_append, markersOf_append, hmk]
          simp [markersOf]
        · intro hcontr
          dsimp only at hcontr
          cases hcontr
      · rw [Write_def_fits ol p ht' h2 h3]
        refine ⟨?_, ?_, ?_⟩
        · dsimp only
          rw [payloadBytes_append, hpay]
          simp [payloadBytes, chunkPayloadBytes]
        · intro hcontr
          dsimp only at hcontr
          rw [ht'] at hcontr
          cases hcontr
        · intro _
          dsimp only
          refine ⟨?_, by omega, by omega⟩
          rw [markersOf_append, hmk]
          simp [markersOf]

theorem runWrites_inv : ∀ (ps : List (List Char)) (ol : OutputLimiter), LimInv ol →
    LimInv (runWrites ol ps)
  | [], ol, h => h
  | p :: ps, ol, h => by
    rw [runWrites, List.foldl_cons]
    exact runWrites_inv ps (ol.Write p).2 (LimInv_write ol p h)

theorem runWrites_maxBytes : ∀ (ps : List (List Char)) (ol : OutputLimiter),
    (runWrites ol ps).maxBytes = ol.maxBytes
  | [], ol => rfl
  | p :: ps, ol => by
    rw [runWrites, List.foldl_cons]
    rw [show (List.foldl (fun o p => (o.Write p).2) ((ol.Write p).2) ps) =
      runWrites (ol.Write p).2 ps from rfl]
    rw [runWrites_maxBytes ps (ol.Write p).2, Write_maxBytes]

/-! ### C6: limiter accounting -/

/-- The limiter state after an overflowing two-byte write into a one-byte
limiter. -/
def olOverflowExample : OutputLimiter := runWrites (NewOutputLimiter 1) [['a', 'b']]

/-- Counterexample to C6 as stated: after writing two bytes into a one-byte
limiter the state is truncated with exactly one marker, but
`total_input_bytes` is the payload bytes emitted plus the remaining bytes
alone — adding the truncation-marker length, as the claim demands, breaks
the identity. -/
theorem limiter_accounting_counterexample :
    olOverflowExample.WasTruncated = true ∧
    markersOf olOverflowExample.sink = [truncMsg 1 1] ∧
    olOverflowExample.totalInputBytes ≠
      payloadBytes olOverflowExample.sink + ((truncMsg 1 1).length : Int) +
        olOverflowExample.GetRemainingBytes := by
  decide

/-- C6 amended: for every write sequence into a limiter with positive
`max_bytes`, when the truncated flag is set `total_input_bytes` equals the
payload bytes emitted to the sink plus `GetRemainingBytes` (the marker bytes
are not part of this accounting); and the sink always receives exactly
`min(total_input_bytes, max_bytes)` payload bytes plus at most one
truncation marker. -/
theorem limiter_accounting_amended (max : Int) (ps : List (List Char)) (h : 0 < max) :
    ((runWrites (NewOutputLimiter max) ps).truncated = true →
       (runWrites (NewOutputLimiter max) ps).totalInputBytes =
         payloadBytes (runWrites (NewOutputLimiter max) ps).sink +
           (runWrites (NewOutputLimiter max) ps).GetRemainingBytes) ∧
    payloadBytes (runWrites (NewOutputLimiter max) ps).sink =
      min (runWrites (NewOutputLimiter max) ps).totalInputBytes max ∧
    (markersOf (runWrites (NewOutputLimiter max) ps).sink).length ≤ 1 := by
  have hinv := runWrites_inv ps (NewOutputLimiter max) (LimInv_new max (le_of_lt h))
  have hmaxeq : (runWrites (NewOutputLimiter max) ps).maxBytes = max :=
    runWrites_maxBytes ps (NewOutputLimiter max)
  obtain ⟨hpay, htr, hntr⟩ := hinv
  by_cases ht : (runWrites (NewOutputLimiter max) ps).truncated = true
  · obtain ⟨⟨M, hM0, hMeq⟩, hbw, hle⟩ := htr ht
    refine ⟨?_, ?_, ?_⟩
    · intro _
      rw [OutputLimiter.GetRemainingBytes, if_neg (by simp [ht])]
      omega
    · rw [hpay]
      omega
    · rw [hMeq]
      simp
  · have ht' : (runWrites (NewOutputLimiter max) ps).truncated = false := by
      cases h0 : (runWrites (NewOutputLimiter max) ps).truncated
      · rfl
      · exact absurd h0 ht
    obtain ⟨hmk, hbw, hle⟩ := hntr ht'
    refine ⟨fun hc => absurd hc ht, ?_, ?_⟩
    · rw [hpay]
      omega
    · rw [hmk]
      simp

/-- Witness for the amended C6: two writes of one and two bytes into a
two-byte limiter truncate, and the accounting identity holds there. -/
theorem limiter_accounting_amended_witness :
    (runWrites (NewOutputLimiter 2) [['a'], ['b', 'c']]).truncated = true ∧
    (runWrites (NewOutputLimiter 2) [['a'], ['b', 'c']]).totalInputBytes =
      payloadBytes (runWrites (NewOutputLimiter 2) [['a'], ['b', 'c']]).sink +
        (runWrites (NewOutputLimiter 2) [['a'], ['b', 'c']]).GetRemainingBytes := by
  refine ⟨by decide, ?_⟩
  exact (limiter_accounting_amended 2 [['a'], ['b', 'c']] (by decide)).1 (by decide)

/-! ### C7: limiter transparency and the truncation marker -/

/-- The limiter state reached from a fresh limiter by a sequence of writes. -/
def limiterState (max : Int) (ps : List (List Char)) : OutputLimiter :=
  runWrites (NewOutputLimiter max) ps

/-- C7.  `Write` always reports the full input length and no error, even on
overflow; the first time the accepted bytes would exceed `max_bytes`, the
limiter forwards only the bytes that still fit and then emits exactly one
marker `"\n\n[Output truncated, exceeded N bytes limit. M bytes remaining]\n"`
with `N = max_bytes` and `M` the input discarded so far; afterwards every
write leaves the sink untouched while still increasing the discarded count
by its full length. -/
theorem limiter_transparency_and_marker :
    (∀ (ol : OutputLimiter) (p : List Char), (ol.Write p).1 = ((p.length : Int), none)) ∧
    (∀ (max : Int) (ps : List (List Char)) (p : List Char), 0 < max →
       (limiterState max ps).truncated = false →
       (limiterState max ps).bytesWritten + (p.length : Int) > max →
       ((limiterState max ps).Write p).2.truncated = true ∧
       ((limiterState max ps).Write p).2.sink =
         (limiterState max ps).sink ++
           (if 0 < max - (limiterState max ps).bytesWritten then
              [Chunk.payload (p.take (max - (limiterState max ps).bytesWritten).toNat)]
            else []) ++
           [Chunk.marker (truncMsg max
             ((limiterState max ps).totalInputBytes + (p.length : Int) - max))]) ∧
    (∀ (max : Int) (ps : List (List Char)) (p : List Char),
       (limiterState max ps).truncated = true →
       ((limiterState max ps).Write p).2.truncated = true ∧
       ((limiterState max ps).Write p).2.sink = (limiterState max ps).sink ∧
       ((limiterState max ps).Write p).2.GetRemainingBytes =
         (limiterState max ps).GetRemainingBytes + (p.length : Int)) := by
  refine ⟨Write_fst, ?_, ?_⟩
  · intro max ps p hmax0 ht hover
    have hinv : LimInv (limiterState max ps) :=
      runWrites_inv ps (NewOutputLimiter max) (LimInv_new max (le_of_lt hmax0))
    have hmaxeq : (limiterState max ps).maxBytes = max :=
      runWrites_maxBytes ps (NewOutputLimiter max)
    obtain ⟨hpay, htr, hntr⟩ := hinv
    obtain ⟨hmk, hbw, hle⟩ := hntr ht
    by_cases h2 : max - (limiterState max ps).bytesWritten ≤ 0
    · rw [Write_def_at_limit (limiterState max ps) p ht (by omega)]
      refine ⟨rfl, ?_⟩
      dsimp only
      rw [if_neg (by omega)]
      rw [List.append_nil]
      have e2 : (limiterState max ps).totalInputBytes + (p.length : Int) -
          (limiterState max ps).bytesWritten =
          (limiterState max ps).totalInputBytes + (p.length : Int) - max := by
        omega
      rw [hmaxeq]
      rw [e2]
    · rw [Write_def_overflow (limiterState max ps) p ht (by omega) (by omega)]
      refine ⟨rfl, ?_⟩
      dsimp only
      rw [if_pos (by omega)]
      rw [hmaxeq]
      have e2 : (limiterState max ps).totalInputBytes + (p.length : Int) -
          ((limiterState max ps).bytesWritten +
            (max - (limiterState max ps).bytesWritten)) =
          (limiterState max ps).totalInputBytes + (p.length : Int) - max := by
        omega
      rw [e2]
  · intro max ps p ht
    rw [Write_def_truncated (limiterState max ps) p ht]
    refine ⟨ht, rfl, ?_⟩
    rw [OutputLimiter.GetRemainingBytes, OutputLimiter.GetRemainingBytes]
    dsimp only
    rw [if_neg (by simp [ht]), if_neg (by simp [ht])]
    omega

/-- Witness for C7 at a two-byte limiter: a one-byte write fits; the next
two-byte write forwards the single fitting byte and the marker with
`N = 2, M = 1`; a later write is swallowed whole but counted. -/
theorem limiter_transparency_and_marker_witness :
    ((NewOutputLimiter 2).Write ['a']).1 = ((1 : Int), none) ∧
    ((limiterState 2 [['a']]).Write ['b', 'c']).2.sink =
      (limiterState 2 [['a']]).sink ++ [Chunk.payload ['b']] ++
        [Chunk.marker (truncMsg 2 1)] ∧
    ((limiterState 2 [['a', 'b', 'c']]).Write ['d']).2.sink =
      (limiterState 2 [['a', 'b', 'c']]).sink := by
  refine ⟨limiter_transparency_and_marker.1 (NewOutputLimiter 2) ['a'], ?_, ?_⟩
  · have h := (limiter_transparency_and_marker.2.1 2 [['a']] ['b', 'c']
      (by decide) (by decide) (by decide)).2
    exact h.trans (by decide)
  · exact (limiter_transparency_and_marker.2.2 2 [['a', 'b', 'c']] ['d'] (by decide)).2.1

end SecureShell
